import Mathlib

/-!
Shallow embedding of the SHSU salary-scraper script (`web_to_csv.py`).

Strings are modelled as `List Char`.  Python's ASCII case mapping,
whitespace stripping, regular-expression word boundaries and substring
tests are modelled explicitly below; each definition names the Python
construct it embeds.
-/

/-- ASCII lower-casing, as Python `str.lower()` acts on the ASCII range. -/
def pyLower (c : Char) : Char :=
  match c with
  | 'A' => 'a' | 'B' => 'b' | 'C' => 'c' | 'D' => 'd' | 'E' => 'e' | 'F' => 'f'
  | 'G' => 'g' | 'H' => 'h' | 'I' => 'i' | 'J' => 'j' | 'K' => 'k' | 'L' => 'l'
  | 'M' => 'm' | 'N' => 'n' | 'O' => 'o' | 'P' => 'p' | 'Q' => 'q' | 'R' => 'r'
  | 'S' => 's' | 'T' => 't' | 'U' => 'u' | 'V' => 'v' | 'W' => 'w' | 'X' => 'x'
  | 'Y' => 'y' | 'Z' => 'z'
  | _ => c

/-- ASCII upper-casing, as Python `str.upper()` acts on the ASCII range. -/
def pyUpper (c : Char) : Char :=
  match c with
  | 'a' => 'A' | 'b' => 'B' | 'c' => 'C' | 'd' => 'D' | 'e' => 'E' | 'f' => 'F'
  | 'g' => 'G' | 'h' => 'H' | 'i' => 'I' | 'j' => 'J' | 'k' => 'K' | 'l' => 'L'
  | 'm' => 'M' | 'n' => 'N' | 'o' => 'O' | 'p' => 'P' | 'q' => 'Q' | 'r' => 'R'
  | 's' => 'S' | 't' => 'T' | 'u' => 'U' | 'v' => 'V' | 'w' => 'W' | 'x' => 'X'
  | 'y' => 'Y' | 'z' => 'Z'
  | _ => c

/-- Lower-case a whole string (Python `s.lower()`). -/
def lcs (s : List Char) : List Char := s.map pyLower

/-- Upper-case a whole string (Python `s.upper()`). -/
def ucs (s : List Char) : List Char := s.map pyUpper

/-- A regex word character `\w` = `[A-Za-z0-9_]`. -/
def isWordChar (c : Char) : Bool := c.isAlphanum || c == '_'

/-- Python `str.lstrip()`: drop leading whitespace. -/
def pyLstrip (s : List Char) : List Char := s.dropWhile Char.isWhitespace

/-- Python removal of trailing whitespace (`str.rstrip()`). -/
def pyRstrip (s : List Char) : List Char :=
  (s.reverse.dropWhile Char.isWhitespace).reverse

/-- Python `str.strip()`: drop leading and trailing whitespace. -/
def pyStrip (s : List Char) : List Char := pyRstrip (pyLstrip s)

/-- `normalize_col` (web_to_csv.py:54-57): lower-case the header and delete
every character that is not an ASCII letter or digit. -/
def normalize_col (s : List Char) : List Char :=
  (s.map pyLower).filter Char.isAlphanum

/-- Case-insensitive match of the word `w` (given lower-case) at index `i`. -/
def matchesAt (s w : List Char) (i : Nat) : Bool :=
  ((s.drop i).take w.length).map pyLower == w

/-- Regex word boundary `\b` holding just before index `i`. -/
def boundaryBefore (s : List Char) (i : Nat) : Bool :=
  i == 0 || !(isWordChar (s.getD (i - 1) ' '))

/-- Regex word boundary `\b` holding just before index `j` counted from the
right, i.e. the character at `j` (if any) is not a word character. -/
def boundaryAfter (s : List Char) (j : Nat) : Bool :=
  decide (s.length ≤ j) || !(isWordChar (s.getD j ' '))

/-- `\bw\b` matches at index `i` of `s`, case-insensitively. -/
def wordAt (s w : List Char) (i : Nat) : Bool :=
  matchesAt s w i && boundaryBefore s i && boundaryAfter s (i + w.length)

/-- `re.search(r'\bw\b', s, re.IGNORECASE)` restricted to start indices `≥ lo`. -/
def containsWordFrom (s w : List Char) (lo : Nat) : Bool :=
  (List.range (s.length + 1)).any fun i => decide (lo ≤ i) && wordAt s w i

/-- `re.search(r'\bw\b', s, re.IGNORECASE)` as a Boolean. -/
def containsWord (s w : List Char) : Bool := containsWordFrom s w 0

/-- Python's substring test `b in s`: `b` occurs contiguously in `s`. -/
def containsSub (s b : List Char) : Bool :=
  (List.range (s.length + 1)).any fun i => (s.drop i).take b.length == b

/-- The gap matched by `.*` may not contain a newline (`re.DOTALL` is off). -/
def gapNoNewline (s : List Char) (a b : Nat) : Bool :=
  ((s.drop a).take (b - a)).all fun c => !(c == '\n')

/-- `re.search(r'\bdean\b.*\b(w₁|w₂|...)\b', s, re.IGNORECASE)`: the word
`dean` followed (possibly after a newline-free gap) by one of `ws`. -/
def deanThenAny (s : List Char) (ws : List (List Char)) : Bool :=
  (List.range (s.length + 1)).any fun i =>
    wordAt s ['d','e','a','n'] i &&
      (List.range (s.length + 1)).any fun j =>
        decide (i + 4 ≤ j) && gapNoNewline s (i + 4) j && ws.any fun w => wordAt s w j

/-- College codes of the first regex in `normalize_dean_title` (line 66). -/
def collegeCodes : List (List Char) :=
  [['c','o','m'], ['c','o','e'], ['c','o','b','a'], ['c','h','s','s'],
   ['c','j'], ['c','a','m'], ['c','o','s','e','t'], ['c','o','h','s']]

/-- Long-form college words of the second regex (line 67). -/
def collegeWords : List (List Char) :=
  ["osteopathic".toList, "education".toList, "business".toList, "humanit".toList,
   "criminal".toList, "arts".toList, "science".toList, "health".toList]

/-- Lines 66-67: the title already names a specific college. -/
def titleNamesCollege (tc : List Char) : Bool :=
  deanThenAny tc collegeCodes || deanThenAny tc collegeWords

/-- The department→abbreviation table of `normalize_dean_title` (lines 76-84),
in source order (dict insertion order is significant for the loop). -/
def abbrevTable : List (List Char × List Char) :=
  [("cam office of the dean".toList, "CAM".toList),
   ("office of the dean ce".toList, "COE".toList),
   ("chss office of the dean".toList, "CHSS".toList),
   ("coba office of the dean".toList, "COBA".toList),
   ("coset office of the dean".toList, "COSET".toList),
   ("cohs office of the dean".toList, "COHS".toList),
   ("college of criminal justice".toList, "CJ".toList)]

/-- Lines 94-98: first table entry whose key is a substring of the normalized
department string (`full in dept_norm`; the second disjunct of the Python
condition re-tests the same containment case-insensitively and is subsumed,
since both sides are already lower-case). -/
def lookupAbbr (deptNorm : List Char) : Option (List Char) :=
  (abbrevTable.find? fun p => containsSub deptNorm p.1).map fun p => p.2

/-- Line 89: `re.fullmatch(r'[A-Z]{2,6}', d) or re.fullmatch(r'[a-z]{2,6}', d)`. -/
def isCodeLike (d : List Char) : Bool :=
  (decide (2 ≤ d.length) && decide (d.length ≤ 6)) &&
    (d.all Char.isUpper || d.all Char.isLower)

/-- `re.findall(r'[A-Za-z]+', s)` (line 103): the maximal runs of ASCII
letters in `s`.  `acc` holds the (reversed) letters of the current run. -/
def alphaWordsAux : List Char → List Char → List (List Char)
  | [], acc => if acc.isEmpty then [] else [acc.reverse]
  | c :: r, acc =>
    if c.isAlpha then alphaWordsAux r (c :: acc)
    else if acc.isEmpty then alphaWordsAux r []
    else acc.reverse :: alphaWordsAux r []

/-- `re.findall(r'[A-Za-z]+', s)`. -/
def alphaWords (s : List Char) : List (List Char) := alphaWordsAux s []

/-- Line 104: upper-cased first letters of the words, truncated to 4. -/
def initialsOf (d : List Char) : List Char :=
  ((alphaWords d).map fun w => pyUpper (w.headD 'A')).take 4

/-- Python truthiness of the `dept` argument: `None` and the empty string are
falsy, any other string is truthy. -/
def deptTruthy (dept : Option (List Char)) : Bool :=
  match dept with
  | none => false
  | some d => !d.isEmpty

/-- The literal title used by the self-call at line 114. -/
def deanOfCollegeT : List Char := "Dean of College".toList

/-- The prefix of every synthesised title: `f"Dean {found}"`. -/
def deanSpace : List Char := "Dean ".toList

/-- Lines 72-110: the body run when a department value is used.  Returns
`none` when the guard at line 74 rejects the department string and control
falls through to line 113. -/
def deptBranch (d : List Char) : Option (List Char) :=
  let ds := pyStrip d
  if !ds.isEmpty && !(lcs ds == "nan".toList) && !(lcs ds == "none".toList) then
    some (if isCodeLike ds then deanSpace ++ ucs ds
          else match lookupAbbr (lcs ds) with
          | some ab => deanSpace ++ ab
          | none =>
            let ini := initialsOf ds
            if 2 ≤ ini.length then deanSpace ++ ini else deanSpace ++ ds)
  else none

/-- `normalize_dean_title` (web_to_csv.py:60-116) with explicit recursion
fuel.  The Python function calls itself at line 114 with the constant title
`"Dean of College"`; whenever that self-call is reached a second time it is
reached with identical arguments, so the Python call either returns within
two activation frames or recurses forever (a `RecursionError`).  `none`
models that non-termination; `fuel = 2` therefore evaluates every
terminating input exactly. -/
def normalizeFuel : Nat → List Char → Option (List Char) → Option (List Char)
  | 0, _, _ => none
  | Nat.succ fuel, title, dept =>
    let tc := pyStrip title
    if titleNamesCollege tc then some tc
    else
      let viaDept : Option (List Char) :=
        if containsWord tc ['d','e','a','n'] && containsWord tc "college".toList
            && deptTruthy dept then
          match dept with
          | none => none
          | some d => deptBranch d
        else none
      match viaDept with
      | some r => some r
      | none =>
        if deanThenAny tc ["college".toList] && deptTruthy dept then
          normalizeFuel fuel deanOfCollegeT dept
        else some tc

/-- `normalize_dean_title(title, dept)`; `none` = Python `RecursionError`. -/
def normalize_dean_title (title : List Char) (dept : Option (List Char)) :
    Option (List Char) :=
  normalizeFuel 2 title dept

/-- The apostrophe character. -/
def aposC : Char := Char.ofNat 39

/-- The excluded title fragment `"Dean's Office Specialist"`, lower-cased
(the pandas containment test at line 205 runs with `case=False`). -/
def specialistKey : List Char :=
  ['d','e','a','n', aposC, 's', ' ', 'o','f','f','i','c','e', ' ',
   's','p','e','c','i','a','l','i','s','t']

/-- Line 204: `str.match(r"^Dean\b", case=False)` — the title starts with
the word `Dean`, case-insensitively. -/
def deanLeadMatch (t : List Char) : Bool :=
  matchesAt t ['d','e','a','n'] 0 && boundaryAfter t 4

/-- Lines 203-205: the Dean row filter — leading word `Dean` and no
case-insensitive occurrence of `"Dean's Office Specialist"`. -/
def deanPass (t : List Char) : Bool :=
  deanLeadMatch t && !(containsSub (lcs t) specialistKey)

/-- The `col_map` alias table (web_to_csv.py:154-165). -/
def col_map : List (List Char × List Char) :=
  [("positiontitle".toList, "Title".toList),
   ("jobtitle".toList, "Title".toList),
   ("title".toList, "Title".toList),
   ("employeename".toList, "Name".toList),
   ("name".toList, "Name".toList),
   ("annualsalary".toList, "Salary".toList),
   ("salary".toList, "Salary".toList),
   ("annualpayrate".toList, "Salary".toList),
   ("fy18annualsalary".toList, "Salary".toList),
   ("fy19annualsalary".toList, "Salary".toList)]

/-- Line 182: `col_map.get(c, c)` — alias lookup with pass-through default. -/
def applyAlias (c : List Char) : List Char :=
  match col_map.find? fun p => p.1 == c with
  | some p => p.2
  | none => c

/-- The three required target columns. -/
def titleK : List Char := "Title".toList

/-- The required `Name` column label. -/
def nameK : List Char := "Name".toList

/-- The required `Salary` column label. -/
def salaryK : List Char := "Salary".toList

/-- Line 186: all of `Title`, `Name`, `Salary` occur among the columns. -/
def requiredOK (cols : List (List Char)) : Bool :=
  cols.contains titleK && cols.contains nameK && cols.contains salaryK

/-- A sheet read: offset ↦ (column header cells, data rows); `none` models a
`pd.read_excel` exception at that offset. -/
def SheetRead : Type := Nat → Option (List (List Char) × List (List (List Char)))

/-- One pass of the loop body at lines 169-191 for offset `h`: read the
sheet with `header=h`, normalize and alias the headers, and keep the frame
when the three required columns are present. -/
def headerAttempt (read : SheetRead) (h : Nat) :
    Option (List (List Char) × List (List (List Char))) :=
  match read h with
  | none => none
  | some (cols, rows) =>
    let mapped := cols.map fun c => applyAlias (normalize_col c)
    if requiredOK mapped then some (mapped, rows) else none

/-- The `for header_row in range(10)` loop with `break` (lines 168-191):
try offsets `first, first+1, ...` while fuel lasts, returning the first
successful offset together with its reconciled frame. -/
def reconcileAux (read : SheetRead) : Nat → Nat → Option (Nat × List (List Char) × List (List (List Char)))
  | _, 0 => none
  | first, Nat.succ fuel =>
    match headerAttempt read first with
    | some p => some (first, p)
    | none => reconcileAux read (first + 1) fuel

/-- Column reconciliation for one sheet: offsets `0..9`, first hit wins. -/
def reconcileIdx (read : SheetRead) :
    Option (Nat × List (List Char) × List (List (List Char))) :=
  reconcileAux read 0 10

/-- The candidate set at line 212. -/
def deptCandidates : List (List Char) :=
  ["department".toList, "dept".toList, "college".toList, "division".toList,
   "unit".toList, "school".toList]

/-- Line 216: the normalized column name qualifies as a department column. -/
def deptPred (c : List Char) : Bool :=
  let nc := normalize_col c
  deptCandidates.contains nc || containsSub nc "college".toList ||
    "dept".toList.isPrefixOf nc

/-- Lines 211-218: first column (left-to-right) qualifying as department. -/
def findDeptCol (cols : List (List Char)) : Option (List Char) :=
  cols.find? deptPred

/-- `re.search(r'FY[\s_]*(\d{2,4})', filename, re.IGNORECASE)` attempted at
one start index: `FY` (case-insensitive), a run of whitespace/underscores,
then greedily 2-4 digits; returns the digit group. -/
def matchFYAt (s : List Char) (i : Nat) : Option (List Char) :=
  match s.drop i with
  | c1 :: c2 :: rest =>
    if pyLower c1 == 'f' && pyLower c2 == 'y' then
      let afterSep := rest.dropWhile fun c => c.isWhitespace || c == '_'
      let ds := (afterSep.takeWhile Char.isDigit).take 4
      if 2 ≤ ds.length then some ds else none
    else none
  | _ => none

/-- Digit-string to number (`int`). -/
def digitsVal (ds : List Char) : Nat :=
  ds.foldl (fun a c => 10 * a + (c.toNat - 48)) 0

/-- Lines 124-130: extract the fiscal year from the filename, prefixing
`20` to two-digit groups; `none` when the pattern never matches. -/
def extractYear (fname : List Char) : Option Nat :=
  ((List.range (fname.length + 1)).findSome? fun i => matchFYAt fname i).map
    fun ds => if ds.length == 2 then 2000 + digitsVal ds else digitsVal ds

/-- Console diagnostics printed by the script, by source filename. -/
inductive LogEntry where
  | fetchError (fname : List Char)
  | decodeError (fname : List Char)
  | headerNotFound (fname : List Char)
  | sampleHead (fname : List Char)
  | missingNameSalary (fname : List Char)
deriving DecidableEq

/-- One row of the output dataset (`Year`, `Title`, `Name`, `Salary`);
`year = none` models a missing (`None`) year value. -/
structure DeanRecord where
  year : Option Nat
  title : List Char
  name : List Char
  salary : List Char
deriving DecidableEq

/-- One discovered spreadsheet source together with the behaviour of the
external collaborators on it: whether the HTTP fetch succeeds, whether any
Excel engine can open the bytes, the per-offset sheet reads of the first
sheet, and whether the 10-row diagnostic sample read at line 195 succeeds. -/
structure Source where
  filename : List Char
  fetchOK : Bool
  decodeOK : Bool
  readSheet : SheetRead
  sampleOK : Bool

/-- Cell of `row` in the first column of `cols` labelled `k`. -/
def cellIdx (cols : List (List Char)) (k : List Char) : Option Nat :=
  cols.findIdx? fun c => c == k

/-- Line 201: `df["Title"].astype(str).str.strip()` — strip the title cell. -/
def stripTitleCell (ti : Nat) (row : List (List Char)) : List (List Char) :=
  row.set ti (pyStrip (row.getD ti []))

/-- The title cell of a row. -/
def rowTitle (ti : Nat) (row : List (List Char)) : List Char := row.getD ti []

/-- Lines 210-228: the department value handed to `normalize_dean_title`
for one row — the cell of the first qualifying department column, if any. -/
def deptArg (cols : List (List Char)) (row : List (List Char)) : Option (List Char) :=
  ((findDeptCol cols).bind fun dc => cellIdx cols dc).bind fun i => row.get? i

/-- Lines 203-205: select the Dean rows; never rewrites a cell. -/
def deanFilterRows (ti : Nat) (rows : List (List (List Char))) :
    List (List (List Char)) :=
  rows.filter fun r => deanPass (rowTitle ti r)

/-- The body of the `for url in ft_links` loop (lines 120-238) for a single
source.  `Except.error` models an uncaught exception that aborts the whole
script; `Except.ok (records, log)` is the source's contribution. -/
def processSource (s : Source) : Except (List LogEntry) (List DeanRecord × List LogEntry) :=
  let year := extractYear s.filename
  if !s.fetchOK then .ok ([], [.fetchError s.filename])
  else if !s.decodeOK then .ok ([], [.decodeError s.filename])
  else
    match reconcileIdx s.readSheet with
    | none =>
      if s.sampleOK then .ok ([], [.headerNotFound s.filename, .sampleHead s.filename])
      else .error [.headerNotFound s.filename]
    | some (_, cols, rows) =>
      match cellIdx cols titleK with
      | none => .ok ([], [])
      | some ti =>
        let rows1 := rows.map (stripTitleCell ti)
        let filtered := deanFilterRows ti rows1
        if filtered.isEmpty then .ok ([], [])
        else
          match filtered.mapM (fun r =>
              (normalize_dean_title (rowTitle ti r) (deptArg cols r)).map
                fun t2 => r.set ti t2) with
          | none => .error []
          | some rows2 =>
            if (cellIdx cols nameK).isSome && (cellIdx cols salaryK).isSome then
              .ok (rows2.map fun r =>
                { year := year
                  title := rowTitle ti r
                  name := ((cellIdx cols nameK).bind fun i => r.get? i).getD []
                  salary := ((cellIdx cols salaryK).bind fun i => r.get? i).getD [] }, [])
            else .ok ([], [.missingNameSalary s.filename])

/-- Records a source contributes (empty when it is skipped or the run aborts
inside it). -/
def sourceRecords (s : Source) : List DeanRecord :=
  match processSource s with
  | .ok (r, _) => r
  | .error _ => []

/-- Diagnostics a source emits. -/
def sourceLog (s : Source) : List LogEntry :=
  match processSource s with
  | .ok (_, l) => l
  | .error l => l

/-- Whether processing this source raises an uncaught exception. -/
def sourceAborts (s : Source) : Bool :=
  match processSource s with
  | .ok _ => false
  | .error _ => true

/-- Accumulated outcome of the whole run. -/
structure RunOutcome where
  records : List DeanRecord
  log : List LogEntry
  aborted : Bool
deriving DecidableEq

/-- Fold one source into the run: once aborted, nothing further happens. -/
def stepRun (acc : RunOutcome) (s : Source) : RunOutcome :=
  if acc.aborted then acc
  else
    match processSource s with
    | .ok (recs, lg) => ⟨acc.records ++ recs, acc.log ++ lg, false⟩
    | .error lg => ⟨acc.records, acc.log ++ lg, true⟩

/-- The whole `for url in ft_links` loop over the discovered sources. -/
def runAll (srcs : List Source) : RunOutcome :=
  srcs.foldl stepRun ⟨[], [], false⟩

/-- Line 241 runs unconditionally after the loop: the CSV is written iff the
loop was not aborted by an uncaught exception. -/
def csvWritten (o : RunOutcome) : Bool := !o.aborted

/-- Line 242: the success message is printed iff the loop completed. -/
def successMessagePrinted (o : RunOutcome) : Bool := !o.aborted

/-- A synthetic healthy source (the end-to-end scenario of the spec). -/
def egSource : Source :=
  { filename := "FY2012_Full Time Employee.xlsx".toList
    fetchOK := true
    decodeOK := true
    readSheet := fun h =>
      if h == 0 then
        some (["POSITION_TITLE".toList, "NAME".toList, "ANNUAL SALARY".toList,
               "TIMESHEET_ORGANIZATION_DESC".toList],
              [["Dean COSET".toList, "Jane Doe".toList, "150000".toList,
                "COSET Office of the Dean".toList],
               ["Associate Dean".toList, "John Roe".toList, "120000".toList,
                "CHSS".toList]])
      else none
    sampleOK := true }

/-! ### Concrete inputs used to instantiate the claims -/

/-- Sheet whose literal headers sit at offset 3 (rows 0-2 are junk). -/
def c1Read : SheetRead := fun h =>
  if h == 3 then
    some (["Position_Title".toList, "Employee_Name".toList, "Annual_Salary".toList],
      [["Dean CHSS".toList, "Ann Blake".toList, "140000".toList]])
  else if h < 3 then some (["Salary Listing".toList], [])
  else none

/-- The reconciled column labels of `c1Read`. -/
def c1Mapped : List (List Char) := ["Title".toList, "Name".toList, "Salary".toList]

/-- The data rows of `c1Read`. -/
def c1Rows : List (List (List Char)) :=
  [["Dean CHSS".toList, "Ann Blake".toList, "140000".toList]]

/-- A healthy source wrapping `c1Read`. -/
def c1Src : Source :=
  { filename := "FY2011.xlsx".toList, fetchOK := true, decodeOK := true,
    readSheet := c1Read, sampleOK := true }

/-- A source whose filename carries no fiscal-year token. -/
def c4Source : Source :=
  { filename := "Full_Time_Employees.xlsx".toList
    fetchOK := true
    decodeOK := true
    readSheet := fun h =>
      if h == 0 then
        some (["Position Title".toList, "Name".toList, "Annual Salary".toList],
          [["Dean COBA".toList, "Jane Roe".toList, "100000".toList]])
      else none
    sampleOK := true }

/-- The record `c4Source` contributes (with no year). -/
def c4Record : DeanRecord :=
  { year := none, title := "Dean COBA".toList, name := "Jane Roe".toList,
    salary := "100000".toList }

/-- A sheet with an unmapped literal header `Department Name`. -/
def c5Read : SheetRead := fun h =>
  if h == 0 then
    some (["Position Title".toList, "Name".toList, "Annual Salary".toList,
      "Department Name".toList], [])
  else none

/-- A source whose sheet reads always raise, including the 10-row diagnostic
sample read at line 195 (`sampleOK := false`). -/
def c6Bad : Source :=
  { filename := "FY2012.xlsx".toList, fetchOK := true, decodeOK := true,
    readSheet := fun _ => none, sampleOK := false }

/-- A healthy source scheduled after `c6Bad`. -/
def c6Good : Source :=
  { filename := "FY2013.xlsx".toList
    fetchOK := true
    decodeOK := true
    readSheet := fun h =>
      if h == 0 then
        some (["Position Title".toList, "Name".toList, "Annual Salary".toList],
          [["Dean CHSS".toList, "Sam Hale".toList, "120000".toList]])
      else none
    sampleOK := true }

/-- The record `c6Good` contributes when it is actually processed. -/
def c6Record : DeanRecord :=
  { year := some 2013, title := "Dean CHSS".toList, name := "Sam Hale".toList,
    salary := "120000".toList }

/-! ### Helper lemmas: character classes -/

theorem isAlpha_pyLower (c : Char) : (pyLower c).isAlpha = c.isAlpha := by
  unfold pyLower; split <;> rfl

theorem isAlpha_pyUpper (c : Char) : (pyUpper c).isAlpha = c.isAlpha := by
  unfold pyUpper; split <;> rfl

theorem isWhitespace_pyLower (c : Char) : (pyLower c).isWhitespace = c.isWhitespace := by
  unfold pyLower; split <;> rfl

theorem isWordChar_pyLower (c : Char) : isWordChar (pyLower c) = isWordChar c := by
  unfold pyLower isWordChar; split <;> rfl

theorem isAlpha_pyUpper_of_isAlpha {c : Char} (h : c.isAlpha = true) :
    (pyUpper c).isAlpha = true := by rw [isAlpha_pyUpper]; exact h

theorem pyLower_apos : pyLower aposC = aposC := by decide

theorem isAlpha_aposC : aposC.isAlpha = false := by decide

/-! ### Helper lemmas: substring containment -/

theorem containsSub_iff {s b : List Char} :
    containsSub s b = true ↔ ∃ p q, s = p ++ b ++ q := by
  unfold containsSub
  rw [List.any_eq_true]
  constructor
  · rintro ⟨i, -, hi⟩
    have htake : (s.drop i).take b.length = b := by simpa using hi
    refine ⟨s.take i, s.drop (i + b.length), ?_⟩
    have h1 : s = s.take i ++ s.drop i := (List.take_append_drop i s).symm
    have h2 : s.drop i = (s.drop i).take b.length ++ (s.drop i).drop b.length := 
      (List.take_append_drop b.length (s.drop i)).symm
    rw [List.drop_drop] at h2
    rw [htake] at h2
    conv_lhs => rw [h1, h2]
    simp [List.append_assoc]
  · rintro ⟨p, q, rfl⟩
    refine ⟨p.length, ?_, ?_⟩
    · rw [List.mem_range]
      have : p.length ≤ (p ++ b ++ q).length := by
        simp [List.length_append]
      omega
    · have hd : (p ++ b ++ q).drop p.length = b ++ q := by
        rw [List.append_assoc]
        exact List.drop_left p (b ++ q)
      rw [hd]
      have : (b ++ q).take b.length = b := List.take_left b q
      simp [this]

theorem containsSub_mono {s b p q : List Char} (h : containsSub s b = true) :
    containsSub (p ++ s ++ q) b = true := by
  rw [containsSub_iff] at h ⊢
  obtain ⟨x, y, rfl⟩ := h
  exact ⟨p ++ x, y ++ q, by simp [List.append_assoc]⟩

/-! ### Helper: counting maximal letter runs -/

/-- Number of maximal ASCII-letter runs in `s`, given whether a run is
already open on the left. -/
def runsCountAux : List Char → Bool → Nat
  | [], inRun => if inRun then 1 else 0
  | c :: r, inRun =>
    if c.isAlpha then runsCountAux r true
    else (if inRun then 1 else 0) + runsCountAux r false

/-- Number of maximal ASCII-letter runs in `s`. -/
def runsCount (s : List Char) : Nat := runsCountAux s false

theorem length_alphaWordsAux (s : List Char) :
    ∀ acc, (alphaWordsAux s acc).length = runsCountAux s (!acc.isEmpty) := by
  induction s with
  | nil =>
    intro acc
    by_cases h : acc.isEmpty <;> simp [alphaWordsAux, runsCountAux, h]
  | cons c r ih =>
    intro acc
    by_cases hc : c.isAlpha
    · simp [alphaWordsAux, runsCountAux, hc, ih]
    · by_cases ha : acc.isEmpty
      · simp [alphaWordsAux, runsCountAux, hc, ha, ih]
      · simp [alphaWordsAux, runsCountAux, hc, ha, ih]
        omega

theorem length_alphaWords (s : List Char) :
    (alphaWords s).length = runsCount s := by
  simpa using length_alphaWordsAux s []

theorem runsCountAux_false_le_true (y : List Char) :
    runsCountAux y false ≤ runsCountAux y true := by
  induction y with
  | nil => simp [runsCountAux]
  | cons c r ih =>
    by_cases hc : c.isAlpha <;> simp [runsCountAux, hc]

theorem runsCountAux_true_le (y : List Char) :
    runsCountAux y true ≤ runsCountAux y false + 1 := by
  induction y with
  | nil => simp [runsCountAux]
  | cons c r ih =>
    by_cases hc : c.isAlpha <;> simp [runsCountAux, hc] <;> omega

theorem one_le_runsCountAux_true (y : List Char) : 1 ≤ runsCountAux y true := by
  induction y with
  | nil => simp [runsCountAux]
  | cons c r ih =>
    by_cases hc : c.isAlpha <;> simp [runsCountAux, hc] <;> omega

theorem runsCountAux_le_append (x y : List Char) :
    ∀ st, runsCountAux x st ≤ runsCountAux (x ++ y) st := by
  induction x with
  | nil =>
    intro st
    cases st
    · simp [runsCountAux]
    · simpa [runsCountAux] using one_le_runsCountAux_true y
  | cons c r ih =>
    intro st
    by_cases hc : c.isAlpha
    · simpa [runsCountAux, hc] using ih true
    · cases st <;> simp [runsCountAux, hc]
      · exact ih false
      · have := ih false
        omega

theorem runsCountAux_right_le (p m : List Char) :
    ∀ st, runsCount m ≤ runsCountAux (p ++ m) st := by
  induction p with
  | nil =>
    intro st
    cases st
    · exact Nat.le_refl _
    · exact runsCountAux_false_le_true m
  | cons c r ih =>
    intro st
    by_cases hc : c.isAlpha
    · simpa [runsCountAux, hc] using ih true
    · cases st <;> simp [runsCountAux, hc]
      · exact ih false
      · have := ih false
        omega

theorem runsCount_of_containsSub {s b : List Char} (h : containsSub s b = true) :
    runsCount b ≤ runsCount s := by
  rw [containsSub_iff] at h
  obtain ⟨p, q, rfl⟩ := h
  calc runsCount b ≤ runsCountAux (b ++ q) false := runsCountAux_le_append b q false
    _ ≤ runsCountAux (p ++ (b ++ q)) false := runsCountAux_right_le p (b ++ q) false
    _ = runsCount (p ++ b ++ q) := by rw [runsCount, List.append_assoc]

theorem runsCountAux_lcs (s : List Char) :
    ∀ st, runsCountAux (lcs s) st = runsCountAux s st := by
  induction s with
  | nil => intro st; rfl
  | cons c r ih =>
    intro st
    show runsCountAux (pyLower c :: lcs r) st = _
    by_cases hc : c.isAlpha <;>
      simp [runsCountAux, isAlpha_pyLower, hc, ih]

theorem runsCount_lcs (s : List Char) : runsCount (lcs s) = runsCount s :=
  runsCountAux_lcs s false

theorem runsCountAux_true_all_alpha {X : List Char}
    (h : ∀ c ∈ X, c.isAlpha = true) : runsCountAux X true = 1 := by
  induction X with
  | nil => rfl
  | cons c r ih =>
    have hc : c.isAlpha = true := h c (List.mem_cons_self c r)
    simp only [runsCountAux, hc, if_pos]
    exact ih fun d hd => h d (List.mem_cons_of_mem c hd)

theorem runsCount_all_alpha {X : List Char} (h : ∀ c ∈ X, c.isAlpha = true) :
    runsCount X ≤ 1 := by
  cases X with
  | nil => simp [runsCount, runsCountAux]
  | cons c r =>
    have hc : c.isAlpha = true := h c (List.mem_cons_self c r)
    have : runsCountAux r true = 1 :=
      runsCountAux_true_all_alpha fun d hd => h d (List.mem_cons_of_mem c hd)
    simp [runsCount, runsCountAux, hc, this]

theorem runsCount_specialistKey : runsCount specialistKey = 4 := by decide

/-! ### Helper lemmas: stripping -/

theorem dropWhile_head_not {p : Char → Bool} :
    ∀ {l : List Char} {c : Char} {r : List Char}, l.dropWhile p = c :: r → p c = false := by
  intro l
  induction l with
  | nil => intro c r h; simp [List.dropWhile] at h
  | cons a l ih =>
    intro c r h
    by_cases ha : p a
    · exact ih (by simpa [List.dropWhile, ha] using h)
    · rw [List.dropWhile_cons_of_neg (by simpa using ha)] at h
      cases h
      simpa using ha

theorem dropWhile_dropWhile (p : Char → Bool) (l : List Char) :
    (l.dropWhile p).dropWhile p = l.dropWhile p := by
  cases h : l.dropWhile p with
  | nil => rfl
  | cons c r =>
    have := dropWhile_head_not h
    rw [List.dropWhile_cons_of_neg (by simpa using this)]

theorem pyLstrip_decomp (s : List Char) :
    s = s.takeWhile Char.isWhitespace ++ pyLstrip s :=
  (List.takeWhile_append_dropWhile (p := Char.isWhitespace) (l := s)).symm

theorem pyRstrip_decomp (s : List Char) :
    s = pyRstrip s ++ (s.reverse.takeWhile Char.isWhitespace).reverse := by
  conv_lhs =>
    rw [← List.reverse_reverse s,
      ← List.takeWhile_append_dropWhile (p := Char.isWhitespace) (l := s.reverse)]
  rw [List.reverse_append]
  rfl

theorem pyStrip_decomp (s : List Char) : ∃ p q, s = p ++ pyStrip s ++ q := by
  refine ⟨s.takeWhile Char.isWhitespace,
    ((pyLstrip s).reverse.takeWhile Char.isWhitespace).reverse, ?_⟩
  conv_lhs => rw [pyLstrip_decomp s, pyRstrip_decomp (pyLstrip s)]
  rw [List.append_assoc]
  rfl

theorem pyRstrip_head {s : List Char} {c : Char} {r : List Char}
    (h : pyRstrip s = c :: r) : ∃ r2, s = c :: r2 := by
  have hd := pyRstrip_decomp s
  rw [h] at hd
  exact ⟨r ++ (s.reverse.takeWhile Char.isWhitespace).reverse, by simpa using hd⟩

theorem pyRstrip_pyRstrip (s : List Char) : pyRstrip (pyRstrip s) = pyRstrip s := by
  show ((pyRstrip s).reverse.dropWhile Char.isWhitespace).reverse = pyRstrip s
  rw [pyRstrip, List.reverse_reverse, dropWhile_dropWhile]

theorem pyLstrip_pyStrip (s : List Char) : pyLstrip (pyStrip s) = pyStrip s := by
  cases h : pyStrip s with
  | nil => rfl
  | cons c r =>
    have h2 : pyRstrip (pyLstrip s) = c :: r := h
    obtain ⟨r2, hr2⟩ := pyRstrip_head h2
    have hc : Char.isWhitespace c = false :=
      dropWhile_head_not (show s.dropWhile Char.isWhitespace = c :: r2 from hr2)
    exact List.dropWhile_cons_of_neg (by simpa using hc)

theorem pyStrip_idem (s : List Char) : pyStrip (pyStrip s) = pyStrip s := by
  show pyRstrip (pyLstrip (pyStrip s)) = pyStrip s
  rw [pyLstrip_pyStrip, pyStrip, pyRstrip_pyRstrip]

/-! ### Specification-side predicates for the Dean filter -/

/-- Spec formulation of the leading-word test: the lower-cased title is
`dean` followed by nothing or by a non-word character. -/
def DeanLeadP (t : List Char) : Prop :=
  ∃ r, lcs t = ['d','e','a','n'] ++ r ∧
    (r = [] ∨ ∃ c r2, r = c :: r2 ∧ isWordChar c = false)

/-- Spec formulation of the exclusion test: the lower-cased title contains
`dean's office specialist` as a substring. -/
def SpecialistIn (t : List Char) : Prop :=
  ∃ p q, lcs t = p ++ specialistKey ++ q

/-- The DeanRecord title invariant of the spec. -/
def DeanInvariant (t : List Char) : Prop := DeanLeadP t ∧ ¬SpecialistIn t

theorem getD_lcs (t : List Char) (n : Nat) :
    (lcs t).getD n ' ' = pyLower (t.getD n ' ') := by
  rw [List.getD_eq_getElem?_getD, List.getD_eq_getElem?_getD, lcs, List.getElem?_map]
  cases t[n]? <;> rfl

theorem deanLeadMatch_iff (t : List Char) : deanLeadMatch t = true ↔ DeanLeadP t := by
  constructor
  · intro h
    rw [deanLeadMatch, Bool.and_eq_true] at h
    obtain ⟨hm, hb⟩ := h
    rw [matchesAt] at hm
    have hm' : (lcs t).take 4 = ['d','e','a','n'] := by
      have := of_decide_eq_true (by simpa using hm)
      simpa [lcs, List.map_take] using this
    have hlen : 4 ≤ (lcs t).length := by
      have := congrArg List.length hm'
      simp at this
      omega
    refine ⟨(lcs t).drop 4, ?_, ?_⟩
    · conv_lhs => rw [← List.take_append_drop 4 (lcs t)]
      rw [hm']
    · rw [boundaryAfter, Bool.or_eq_true] at hb
      have hlent : t.length = (lcs t).length := by simp [lcs]
      rcases hb with hb | hb
      · left
        have : t.length ≤ 4 := of_decide_eq_true hb
        have : (lcs t).length = 4 := by omega
        simp [List.drop_eq_nil_iff, this]
      · by_cases hlen5 : t.length ≤ 4
        · left
          have : (lcs t).length = 4 := by omega
          simp [List.drop_eq_nil_iff, this]
        · right
          have hg : 4 < (lcs t).length := by omega
          cases hr : (lcs t).drop 4 with
          | nil =>
            have := congrArg List.length hr
            simp at this
            omega
          | cons c r2 =>
            refine ⟨c, r2, rfl, ?_⟩
            have hfull : lcs t = ['d','e','a','n'] ++ (c :: r2) := by
              conv_lhs => rw [← List.take_append_drop 4 (lcs t)]
              rw [hm', hr]
            have hc : (lcs t).getD 4 ' ' = c := by rw [hfull]; rfl
            have hc2 : c = pyLower (t.getD 4 ' ') := by rw [← getD_lcs, hc]
            rw [hc2, isWordChar_pyLower]
            simpa using hb
  · rintro ⟨r, hr, hb⟩
    rw [deanLeadMatch, Bool.and_eq_true]
    have hlen : t.length = (lcs t).length := by simp [lcs]
    have hrlen : (lcs t).length = 4 + r.length := by
      rw [hr]; simp; omega
    constructor
    · rw [matchesAt]
      have : (lcs t).take 4 = ['d','e','a','n'] := by
        rw [hr]
        exact List.take_left ['d','e','a','n'] r
      simp only [List.drop_zero]
      have hmt : (t.take 4).map pyLower = ['d','e','a','n'] := by
        rw [List.map_take]
        exact this
      simpa using hmt
    · rw [boundaryAfter, Bool.or_eq_true]
      rcases hb with rfl | ⟨c, r2, rfl, hc⟩
      · left
        simp at hrlen
        exact decide_eq_true (by omega)
      · right
        have hgd : (lcs t).getD 4 ' ' = c := by
          rw [hr]
          rfl
        rw [getD_lcs] at hgd
        rw [← isWordChar_pyLower, hgd, hc]
        rfl

theorem specialistIn_iff (t : List Char) :
    SpecialistIn t ↔ containsSub (lcs t) specialistKey = true := by
  rw [containsSub_iff]; exact Iff.rfl

theorem deanPass_iff (t : List Char) :
    deanPass t = true ↔ DeanInvariant t := by
  rw [deanPass, Bool.and_eq_true, deanLeadMatch_iff, DeanInvariant]
  constructor
  · rintro ⟨h1, h2⟩
    refine ⟨h1, fun hs => ?_⟩
    rw [specialistIn_iff] at hs
    rw [hs] at h2
    exact absurd h2 (by decide)
  · rintro ⟨h1, h2⟩
    refine ⟨h1, ?_⟩
    cases hcs : containsSub (lcs t) specialistKey
    · rfl
    · exact absurd ((specialistIn_iff t).mpr hcs) h2

/-! ### Invariant preservation lemmas -/

theorem lcs_append (a b : List Char) : lcs (a ++ b) = lcs a ++ lcs b :=
  List.map_append pyLower a b

theorem specialistIn_pyStrip {t : List Char} (h : SpecialistIn (pyStrip t)) :
    SpecialistIn t := by
  obtain ⟨p, q, hd⟩ := h
  obtain ⟨a, b, hab⟩ := pyStrip_decomp t
  refine ⟨lcs a ++ p, q ++ lcs b, ?_⟩
  conv_lhs => rw [hab]
  rw [lcs_append, lcs_append, hd]
  simp [List.append_assoc]

theorem lcs_pyLstrip (s : List Char) : lcs (pyLstrip s) = pyLstrip (lcs s) := by
  have hp : (Char.isWhitespace ∘ pyLower) = Char.isWhitespace :=
    funext fun c => isWhitespace_pyLower c
  rw [pyLstrip, pyLstrip, lcs, lcs, List.dropWhile_map, hp]

theorem lcs_pyRstrip (s : List Char) : lcs (pyRstrip s) = pyRstrip (lcs s) := by
  have hp : (Char.isWhitespace ∘ pyLower) = Char.isWhitespace :=
    funext fun c => isWhitespace_pyLower c
  rw [pyRstrip, pyRstrip, lcs, lcs, ← List.map_reverse, List.dropWhile_map, hp,
    List.map_reverse]

theorem lcs_pyStrip (s : List Char) : lcs (pyStrip s) = pyStrip (lcs s) := by
  rw [pyStrip, pyStrip, lcs_pyRstrip, lcs_pyLstrip]

theorem deanLeadP_pyStrip {t : List Char} (h : DeanLeadP t) : DeanLeadP (pyStrip t) := by
  obtain ⟨r, hr, hb⟩ := h
  rw [DeanLeadP, lcs_pyStrip, hr]
  have hls : pyLstrip (['d','e','a','n'] ++ r) = ['d','e','a','n'] ++ r := by
    rw [List.cons_append]
    exact List.dropWhile_cons_of_neg (by decide)
  rw [pyStrip, hls, pyRstrip]
  rw [List.reverse_append]
  rw [List.dropWhile_append]
  by_cases he : (r.reverse.dropWhile Char.isWhitespace).isEmpty
  · rw [if_pos he]
    exact ⟨[], by decide, Or.inl rfl⟩
  · rw [if_neg he]
    rw [List.reverse_append]
    rw [show ((['d','e','a','n'] : List Char).reverse.reverse) = ['d','e','a','n'] from by decide]
    refine ⟨(r.reverse.dropWhile Char.isWhitespace).reverse, rfl, ?_⟩
    cases hrr : (r.reverse.dropWhile Char.isWhitespace).reverse with
    | nil =>
      exfalso
      apply he
      rw [List.reverse_eq_nil_iff] at hrr
      simp [hrr]
    | cons c' r2' =>
      right
      refine ⟨c', r2', rfl, ?_⟩
      have hpre : pyRstrip r = c' :: r2' := hrr
      obtain ⟨r3, hr3⟩ := pyRstrip_head hpre
      rcases hb with rfl | ⟨c, r02, rfl, hc⟩
      · simp at hr3
      · injection hr3 with h1 h2
        rw [← h1]
        exact hc

theorem lcs_deanSpace (X : List Char) :
    lcs (deanSpace ++ X) = 'd' :: 'e' :: 'a' :: 'n' :: ' ' :: lcs X := by
  rw [lcs_append]; rfl

theorem deanLeadP_deanSpace (X : List Char) : DeanLeadP (deanSpace ++ X) := by
  refine ⟨' ' :: lcs X, ?_, Or.inr ⟨' ', lcs X, rfl, by decide⟩⟩
  rw [lcs_deanSpace]; rfl

theorem runsCount_dean_gap (y : List Char) :
    runsCount ('d' :: 'e' :: 'a' :: 'n' :: ' ' :: y) = 1 + runsCount y := rfl

theorem not_specialistIn_deanSpace {X : List Char} (hX : runsCount (lcs X) ≤ 1) :
    ¬SpecialistIn (deanSpace ++ X) := by
  intro h
  obtain ⟨p, q, hd⟩ := h
  have hc : containsSub (lcs (deanSpace ++ X)) specialistKey = true :=
    containsSub_iff.mpr ⟨p, q, hd⟩
  have h4 := runsCount_of_containsSub hc
  rw [runsCount_specialistKey, lcs_deanSpace, runsCount_dean_gap] at h4
  omega

theorem deanInvariant_deanSpace {X : List Char} (hX : runsCount (lcs X) ≤ 1) :
    DeanInvariant (deanSpace ++ X) :=
  ⟨deanLeadP_deanSpace X, not_specialistIn_deanSpace hX⟩

theorem runsCount_lcs_le_one_of_alpha {X : List Char}
    (h : ∀ c ∈ X, c.isAlpha = true) : runsCount (lcs X) ≤ 1 := by
  rw [runsCount_lcs]; exact runsCount_all_alpha h

theorem isAlpha_or (c : Char) : c.isAlpha = (c.isUpper || c.isLower) := rfl

theorem isAlpha_of_isUpper {c : Char} (h : c.isUpper = true) : c.isAlpha = true := by
  rw [isAlpha_or, h, Bool.true_or]

theorem isAlpha_of_isLower {c : Char} (h : c.isLower = true) : c.isAlpha = true := by
  rw [isAlpha_or, h, Bool.or_true]

theorem ucs_alpha_of_isCodeLike {d : List Char} (h : isCodeLike d = true) :
    ∀ c ∈ ucs d, c.isAlpha = true := by
  intro c hc
  obtain ⟨a, ha, rfl⟩ := List.mem_map.mp hc
  apply isAlpha_pyUpper_of_isAlpha
  rw [isCodeLike, Bool.and_eq_true, Bool.or_eq_true] at h
  rcases h.2 with h2 | h2
  · exact isAlpha_of_isUpper (by simpa using List.all_eq_true.mp h2 a ha)
  · exact isAlpha_of_isLower (by simpa using List.all_eq_true.mp h2 a ha)

theorem abbrevTable_alpha : ∀ p ∈ abbrevTable, ∀ c ∈ p.2, c.isAlpha = true := by decide

theorem alphaWordsAux_alpha (s : List Char) :
    ∀ acc, (∀ c ∈ acc, c.isAlpha = true) →
      ∀ w ∈ alphaWordsAux s acc, ∀ c ∈ w, c.isAlpha = true := by
  induction s with
  | nil =>
    intro acc hacc w hw c hc
    by_cases h : acc.isEmpty
    · simp [alphaWordsAux, h] at hw
    · simp [alphaWordsAux, h] at hw
      subst hw
      exact hacc c (by simpa using hc)
  | cons a r ih =>
    intro acc hacc w hw c hc
    by_cases ha : a.isAlpha
    · refine ih (a :: acc) ?_ w (by simpa [alphaWordsAux, ha] using hw) c hc
      intro d hd
      rcases List.mem_cons.mp hd with rfl | hd
      · exact ha
      · exact hacc d hd
    · by_cases h2 : acc.isEmpty
      · exact ih [] (by simp) w (by simpa [alphaWordsAux, ha, h2] using hw) c hc
      · have hw2 : w = acc.reverse ∨ w ∈ alphaWordsAux r [] := by
          simpa [alphaWordsAux, ha, h2] using hw
        rcases hw2 with rfl | hw2
        · exact hacc c (by simpa using hc)
        · exact ih [] (by simp) w hw2 c hc

theorem initialsOf_alpha (d : List Char) : ∀ c ∈ initialsOf d, c.isAlpha = true := by
  intro c hc
  rw [initialsOf] at hc
  have hc2 := List.take_subset 4 _ hc
  obtain ⟨w, hw, rfl⟩ := List.mem_map.mp hc2
  apply isAlpha_pyUpper_of_isAlpha
  cases hwc : w with
  | nil => subst hwc; decide
  | cons a r =>
    subst hwc
    exact alphaWordsAux_alpha d [] (by simp) (a :: r) hw a (List.mem_cons_self a r)

theorem lookupAbbr_alpha {dn ab : List Char} (h : lookupAbbr dn = some ab) :
    ∀ c ∈ ab, c.isAlpha = true := by
  rw [lookupAbbr] at h
  obtain ⟨p, hp, rfl⟩ : ∃ p, (abbrevTable.find? fun p => containsSub dn p.1) = some p ∧ p.2 = ab := by
    cases hf : abbrevTable.find? fun p => containsSub dn p.1 with
    | none => rw [hf] at h; simp at h
    | some p => rw [hf] at h; exact ⟨p, rfl, by simpa using h⟩
  exact abbrevTable_alpha p (List.mem_of_find?_eq_some hp)

theorem deptBranch_invariant {d res : List Char} (h : deptBranch d = some res) :
    DeanInvariant res := by
  rw [deptBranch] at h
  by_cases hg : (!(pyStrip d).isEmpty && !(lcs (pyStrip d) == "nan".toList) &&
      !(lcs (pyStrip d) == "none".toList)) = true
  · rw [if_pos hg] at h
    injection h with h
    subst h
    by_cases hcode : isCodeLike (pyStrip d) = true
    · rw [if_pos hcode]
      exact deanInvariant_deanSpace
        (runsCount_lcs_le_one_of_alpha (ucs_alpha_of_isCodeLike hcode))
    · rw [if_neg hcode]
      cases hab : lookupAbbr (lcs (pyStrip d)) with
      | some ab =>
        exact deanInvariant_deanSpace
          (runsCount_lcs_le_one_of_alpha (lookupAbbr_alpha hab))
      | none =>
        by_cases hini : 2 ≤ (initialsOf (pyStrip d)).length
        · rw [if_pos hini]
          exact deanInvariant_deanSpace
            (runsCount_lcs_le_one_of_alpha (initialsOf_alpha (pyStrip d)))
        · rw [if_neg hini]
          apply deanInvariant_deanSpace
          rw [runsCount_lcs, ← length_alphaWords]
          have hlen : (initialsOf (pyStrip d)).length =
              min 4 (alphaWords (pyStrip d)).length := by
            rw [initialsOf, List.length_take, List.length_map]
          omega
  · rw [if_neg hg] at h
    simp at h

theorem deanInvariant_pyStrip {t : List Char} (h : DeanInvariant t) :
    DeanInvariant (pyStrip t) :=
  ⟨deanLeadP_pyStrip h.1, fun hs => h.2 (specialistIn_pyStrip hs)⟩

theorem deanPass_deanOfCollegeT : deanPass deanOfCollegeT = true := by decide

theorem normalizeFuel_invariant (fuel : Nat) :
    ∀ t d res, deanPass t = true → normalizeFuel fuel t d = some res →
      DeanInvariant res := by
  induction fuel with
  | zero =>
    intro t d res _ hn
    simp [normalizeFuel] at hn
  | succ fuel ih =>
    intro t d res hpass hn
    have hinv : DeanInvariant t := (deanPass_iff t).mp hpass
    simp only [normalizeFuel] at hn
    by_cases h1 : titleNamesCollege (pyStrip t) = true
    · rw [if_pos h1] at hn
      injection hn with hn
      subst hn
      exact deanInvariant_pyStrip hinv
    · rw [if_neg h1] at hn
      by_cases h2 : (containsWord (pyStrip t) ['d','e','a','n'] &&
          containsWord (pyStrip t) "college".toList && deptTruthy d) = true
      · rw [if_pos h2] at hn
        cases d with
        | none =>
          simp only [] at hn
          by_cases h3 : (deanThenAny (pyStrip t) ["college".toList] &&
              deptTruthy none) = true
          · rw [if_pos h3] at hn
            exact ih deanOfCollegeT none res deanPass_deanOfCollegeT hn
          · rw [if_neg h3] at hn
            injection hn with hn
            subst hn
            exact deanInvariant_pyStrip hinv
        | some dv =>
          cases hdb : deptBranch dv with
          | some r =>
            simp only [hdb] at hn
            injection hn with hn
            subst hn
            exact deptBranch_invariant hdb
          | none =>
            simp only [hdb] at hn
            by_cases h3 : (deanThenAny (pyStrip t) ["college".toList] &&
                deptTruthy (some dv)) = true
            · rw [if_pos h3] at hn
              exact ih deanOfCollegeT (some dv) res deanPass_deanOfCollegeT hn
            · rw [if_neg h3] at hn
              injection hn with hn
              subst hn
              exact deanInvariant_pyStrip hinv
      · rw [if_neg h2] at hn
        by_cases h3 : (deanThenAny (pyStrip t) ["college".toList] && deptTruthy d) = true
        · rw [if_pos h3] at hn
          exact ih deanOfCollegeT d res deanPass_deanOfCollegeT hn
        · rw [if_neg h3] at hn
          injection hn with hn
          subst hn
          exact deanInvariant_pyStrip hinv

theorem normalize_dean_title_noDept (t : List Char) :
    normalize_dean_title t none = some (pyStrip t) := by
  rw [normalize_dean_title]
  simp only [normalizeFuel]
  by_cases h1 : titleNamesCollege (pyStrip t) = true
  · rw [if_pos h1]
  · rw [if_neg h1]
    simp [deptTruthy]

theorem normalizeFuel_titleNames {t : List Char} (d : Option (List Char))
    (fuel : Nat) (h : titleNamesCollege (pyStrip t) = true) :
    normalizeFuel (fuel + 1) t d = some (pyStrip t) := by
  simp only [normalizeFuel]
  rw [if_pos h]

/-! ### Reconciliation loop characterization -/

theorem reconcileAux_some_charn (read : SheetRead) :
    ∀ fuel first h m rows, reconcileAux read first fuel = some (h, m, rows) →
      first ≤ h ∧ h < first + fuel ∧ headerAttempt read h = some (m, rows) ∧
        ∀ j, first ≤ j → j < h → headerAttempt read j = none := by
  intro fuel
  induction fuel with
  | zero =>
    intro first h m rows hr
    simp [reconcileAux] at hr
  | succ fuel ih =>
    intro first h m rows hr
    simp only [reconcileAux] at hr
    cases hha : headerAttempt read first with
    | some p =>
      rw [hha] at hr
      obtain ⟨rfl, rfl⟩ : first = h ∧ p = (m, rows) := by
        have := hr
        simp at this
        exact this
      refine ⟨Nat.le_refl _, by omega, hha, fun j hj1 hj2 => by omega⟩
    | none =>
      rw [hha] at hr
      obtain ⟨h1, h2, h3, h4⟩ := ih (first + 1) h m rows hr
      refine ⟨by omega, by omega, h3, fun j hj1 hj2 => ?_⟩
      by_cases hj : j = first
      · subst hj; exact hha
      · exact h4 j (by omega) hj2

theorem reconcileAux_none_charn (read : SheetRead) :
    ∀ fuel first, reconcileAux read first fuel = none ↔
      ∀ j, first ≤ j → j < first + fuel → headerAttempt read j = none := by
  intro fuel
  induction fuel with
  | zero =>
    intro first
    simp [reconcileAux]
    omega
  | succ fuel ih =>
    intro first
    simp only [reconcileAux]
    cases hha : headerAttempt read first with
    | some p =>
      simp only []
      constructor
      · intro h; simp at h
      · intro h
        have := h first (Nat.le_refl _) (by omega)
        rw [this] at hha
        cases hha
    | none =>
      simp only []
      rw [ih (first + 1)]
      constructor
      · intro h j hj1 hj2
        by_cases hj : j = first
        · subst hj; exact hha
        · exact h j (by omega) (by omega)
      · intro h j hj1 hj2
        exact h j (by omega) (by omega)

/-! ### Option-mapM inversion -/

theorem mapM_option_mem {α β : Type} (f : α → Option β) :
    ∀ {l : List α} {l2 : List β}, l.mapM f = some l2 →
      ∀ y ∈ l2, ∃ x ∈ l, f x = some y := by
  intro l
  induction l with
  | nil =>
    intro l2 h y hy
    rw [List.mapM_nil] at h
    injection h with h
    subst h
    simp at hy
  | cons a l ih =>
    intro l2 h y hy
    rw [List.mapM_cons] at h
    cases hfa : f a with
    | none => rw [hfa] at h; simp at h
    | some b =>
      rw [hfa] at h
      cases hml : l.mapM f with
      | none => rw [hml] at h; simp at h
      | some bs =>
        rw [hml] at h
        simp at h
        subst h
        rcases List.mem_cons.mp hy with rfl | hy
        · exact ⟨a, List.mem_cons_self a l, hfa⟩
        · obtain ⟨x, hx, hfx⟩ := ih hml y hy
          exact ⟨x, List.mem_cons_of_mem a hx, hfx⟩

theorem rowTitle_set {x : List (List Char)} {t2 : List Char} {ti : Nat}
    (hp : deanPass (rowTitle ti x) = true) :
    rowTitle ti (x.set ti t2) = t2 := by
  have hlt : ti < x.length := by
    by_contra hge
    push_neg at hge
    have hnil : rowTitle ti x = [] := by
      rw [rowTitle, List.getD_eq_getElem?_getD, List.getElem?_eq_none (by omega)]
      rfl
    rw [hnil] at hp
    exact absurd hp (by decide)
  rw [rowTitle, List.getD_eq_getElem?_getD, List.getElem?_set_eq (by simpa using hlt)]
  rfl

theorem rows2_invariant {ti : Nat} {g : List (List Char) → Option (List Char)}
    {filtered rows2 : List (List (List Char))}
    (hf : ∀ x ∈ filtered, deanPass (rowTitle ti x) = true)
    (hm : filtered.mapM (fun r =>
        (normalize_dean_title (rowTitle ti r) (g r)).map
          fun t2 => r.set ti t2) = some rows2) :
    ∀ rr ∈ rows2, DeanInvariant (rowTitle ti rr) := by
  intro rr hrr
  obtain ⟨x, hx, hfx⟩ := mapM_option_mem _ hm rr hrr
  cases hn : normalize_dean_title (rowTitle ti x) (g x) with
  | none => rw [hn] at hfx; simp at hfx
  | some t2 =>
    rw [hn] at hfx
    simp at hfx
    subst hfx
    rw [rowTitle_set (hf x hx)]
    exact normalizeFuel_invariant 2 _ _ _ (hf x hx) hn

theorem processSource_ok_props {s : Source} {recs : List DeanRecord} {lg : List LogEntry}
    (h : processSource s = .ok (recs, lg)) :
    ∀ r ∈ recs, r.year = extractYear s.filename ∧ DeanInvariant r.title := by
  intro r hr
  simp only [processSource] at h
  repeat' split at h
  any_goals (injection h with h1; injection h1 with h1 h2; subst h1; simp at hr)
  any_goals cases h
  rename_i hflt xOpt rows2 hmapm hns
  obtain ⟨rr, hrr, hreq⟩ := hr
  subst hreq
  refine ⟨rfl, ?_⟩
  exact rows2_invariant (fun x hx => (List.mem_filter.mp hx).2) hmapm rr hrr

theorem sourceRecords_props (s : Source) :
    ∀ r ∈ sourceRecords s, r.year = extractYear s.filename ∧ DeanInvariant r.title := by
  intro r hr
  rw [sourceRecords] at hr
  cases hps : processSource s with
  | error l => rw [hps] at hr; simp at hr
  | ok pr =>
    obtain ⟨recs, lg⟩ := pr
    rw [hps] at hr
    exact processSource_ok_props hps r hr

theorem foldl_stepRun_pres (P : DeanRecord → Prop)
    (hP : ∀ s, ∀ r ∈ sourceRecords s, P r) :
    ∀ srcs acc, (∀ r ∈ acc.records, P r) →
      ∀ r ∈ (List.foldl stepRun acc srcs).records, P r := by
  intro srcs
  induction srcs with
  | nil => intro acc hacc; simpa using hacc
  | cons s srcs ih =>
    intro acc hacc r hr
    rw [List.foldl_cons] at hr
    refine ih (stepRun acc s) ?_ r hr
    intro r2 hr2
    rw [stepRun] at hr2
    by_cases hab : acc.aborted
    · rw [if_pos hab] at hr2
      exact hacc r2 hr2
    · rw [if_neg hab] at hr2
      cases hps : processSource s with
      | ok pr =>
        obtain ⟨recs, lg⟩ := pr
        rw [hps] at hr2
        simp only [] at hr2
        rcases List.mem_append.mp hr2 with h | h
        · exact hacc r2 h
        · refine hP s r2 ?_
          rw [sourceRecords, hps]
          exact h
      | error lg =>
        rw [hps] at hr2
        exact hacc r2 hr2

theorem runAll_records_props (srcs : List Source) :
    ∀ r ∈ (runAll srcs).records, DeanInvariant r.title := by
  refine foldl_stepRun_pres (fun r => DeanInvariant r.title)
    (fun s r hr => (sourceRecords_props s r hr).2) srcs ⟨[], [], false⟩ ?_
  intro r hr
  simp at hr

theorem reconcileIdx_none_skip (s : Source) (hf : s.fetchOK = true)
    (hd : s.decodeOK = true) (hr : reconcileIdx s.readSheet = none) :
    sourceRecords s = [] ∧ LogEntry.headerNotFound s.filename ∈ sourceLog s := by
  have hps : processSource s = if s.sampleOK then
      Except.ok ([], [LogEntry.headerNotFound s.filename, LogEntry.sampleHead s.filename])
    else Except.error [LogEntry.headerNotFound s.filename] := by
    simp [processSource, hf, hd, hr]
  rw [sourceRecords, sourceLog, hps]
  by_cases hs : s.sampleOK
  · rw [if_pos hs]
    exact ⟨rfl, by simp⟩
  · rw [if_neg hs]
    exact ⟨rfl, by simp⟩

/-! ### Department-column search characterization -/

theorem isPrefixOf_iff_exists {l1 l2 : List Char} :
    l1.isPrefixOf l2 = true ↔ ∃ t, l2 = l1 ++ t := by
  induction l1 generalizing l2 with
  | nil => simp [List.isPrefixOf]
  | cons a l ih =>
    cases l2 with
    | nil => simp [List.isPrefixOf]
    | cons b l2 =>
      simp only [List.isPrefixOf, Bool.and_eq_true, beq_iff_eq, ih]
      constructor
      · rintro ⟨rfl, t, rfl⟩
        exact ⟨t, rfl⟩
      · rintro ⟨t, ht⟩
        injection ht with h1 h2
        exact ⟨h1.symm, t, h2⟩

theorem findDeptCol_some_charn :
    ∀ (cols : List (List Char)) (c : List Char), findDeptCol cols = some c →
      ∃ i : Nat, cols[i]? = some c ∧ deptPred c = true ∧
        ∀ (j : Nat) (c' : List Char), j < i → cols[j]? = some c' → deptPred c' = false := by
  intro cols
  induction cols with
  | nil => intro c h; simp [findDeptCol] at h
  | cons a l ih =>
    intro c h
    rw [findDeptCol] at h
    by_cases hp : deptPred a = true
    · rw [List.find?_cons_of_pos l hp] at h
      injection h with h
      subst h
      exact ⟨0, by simp, hp, fun j c' hj _ => by omega⟩
    · rw [List.find?_cons_of_neg l (by simpa using hp)] at h
      obtain ⟨i, h1, h2, h3⟩ := ih c h
      refine ⟨i + 1, by simpa using h1, h2, fun j c' hj hc' => ?_⟩
      cases j with
      | zero =>
        simp at hc'
        subst hc'
        simpa using hp
      | succ j =>
        exact h3 j c' (by omega) (by simpa using hc')

theorem findDeptCol_none_charn (cols : List (List Char)) :
    findDeptCol cols = none ↔ ∀ c ∈ cols, deptPred c = false := by
  rw [findDeptCol, List.find?_eq_none]
  constructor
  · intro h c hc
    simpa using h c hc
  · intro h c hc
    simp [h c hc]

/-! ### Header-attempt characterization -/

theorem requiredOK_iff (m : List (List Char)) :
    requiredOK m = true ↔ titleK ∈ m ∧ nameK ∈ m ∧ salaryK ∈ m := by
  rw [requiredOK, Bool.and_eq_true, Bool.and_eq_true]
  rw [List.elem_iff, List.elem_iff, List.elem_iff]
  tauto

theorem headerAttempt_iff (read : SheetRead) (h : Nat) (m : List (List Char))
    (rows : List (List (List Char))) :
    headerAttempt read h = some (m, rows) ↔
      ∃ cols, read h = some (cols, rows) ∧
        m = cols.map (fun c => applyAlias (normalize_col c)) ∧
        titleK ∈ m ∧ nameK ∈ m ∧ salaryK ∈ m := by
  rw [headerAttempt]
  cases hrh : read h with
  | none => simp
  | some p =>
    obtain ⟨cols, rows0⟩ := p
    simp only []
    by_cases hreq : requiredOK (cols.map fun c => applyAlias (normalize_col c)) = true
    · rw [if_pos hreq]
      constructor
      · intro he
        injection he with he
        obtain ⟨hm, hrw⟩ : cols.map (fun c => applyAlias (normalize_col c)) = m ∧
            rows0 = rows := by
          have := he
          simp at this
          exact this
        subst hm
        subst hrw
        exact ⟨cols, rfl, rfl, (requiredOK_iff _).mp hreq⟩
      · rintro ⟨cols2, hc2, rfl, _⟩
        injection hc2 with hc2
        obtain ⟨rfl, rfl⟩ : cols2 = cols ∧ rows = rows0 := by
          have := hc2
          simp at this
          tauto
        rfl
    · rw [if_neg hreq]
      constructor
      · intro he; cases he
      · rintro ⟨cols2, hc2, rfl, hmem⟩
        injection hc2 with hc2
        obtain ⟨rfl, rfl⟩ : cols2 = cols ∧ rows = rows0 := by
          have := hc2
          simp at this
          tauto
        exact absurd ((requiredOK_iff _).mpr hmem) hreq

/-! ## The claims -/

/-- C1: for every workbook sheet, column reconciliation tries header-row
offsets 0 through 9 in ascending order and selects the first offset at
which, after normalizing each candidate header cell and applying the alias
table, all three required columns Title, Name and Salary are present; if no
offset in 0..9 satisfies this, the source is skipped (contributes no
records) and a diagnostic is emitted. -/
theorem C1_header_offset_search (read : SheetRead) (s : Source) :
    (∀ h m rows, headerAttempt read h = some (m, rows) ↔
      ∃ cols, read h = some (cols, rows) ∧
        m = cols.map (fun c => applyAlias (normalize_col c)) ∧
        titleK ∈ m ∧ nameK ∈ m ∧ salaryK ∈ m) ∧
    (∀ h m rows, reconcileIdx read = some (h, m, rows) →
      h < 10 ∧ headerAttempt read h = some (m, rows) ∧
        ∀ j, j < h → headerAttempt read j = none) ∧
    (reconcileIdx read = none ↔ ∀ h, h < 10 → headerAttempt read h = none) ∧
    (s.fetchOK = true → s.decodeOK = true → reconcileIdx s.readSheet = none →
      sourceRecords s = [] ∧ LogEntry.headerNotFound s.filename ∈ sourceLog s) := by
  refine ⟨headerAttempt_iff read, ?_, ?_, reconcileIdx_none_skip s⟩
  · intro h m rows hr
    obtain ⟨h1, h2, h3, h4⟩ := reconcileAux_some_charn read 10 0 h m rows hr
    exact ⟨by omega, h3, fun j hj => h4 j (by omega) hj⟩
  · rw [reconcileIdx, reconcileAux_none_charn read 10 0]
    constructor
    · intro hh j hj
      exact hh j (by omega) (by omega)
    · intro hh j h1 h2
      exact hh j (by omega)

/-- C1 witness: the header row of `c1Read` is found at offset 3 and the
earlier offsets were rejected. -/
theorem C1_header_offset_search_witness :
    reconcileIdx c1Read = some (3, c1Mapped, c1Rows) ∧
      headerAttempt c1Read 3 = some (c1Mapped, c1Rows) ∧
      headerAttempt c1Read 2 = none :=
  have h := (C1_header_offset_search c1Read c1Src).2.1 3 c1Mapped c1Rows (by decide)
  ⟨by decide, h.2.1, h.2.2 2 (by omega)⟩

/-- C2: a row passes the Dean filter iff its title starts with the word
`Dean` (case-insensitively) and does not contain `Dean's Office Specialist`
(case-insensitively); "Dean COBA" passes, "Associate Dean" is rejected, and
the filter only selects rows, never rewriting a cell. -/
theorem C2_dean_filter (t : List Char) (ti : Nat) (rows : List (List (List Char))) :
    (deanPass t = true ↔ DeanLeadP t ∧ ¬SpecialistIn t) ∧
    List.Sublist (deanFilterRows ti rows) rows ∧
    (∀ r, r ∈ deanFilterRows ti rows ↔ r ∈ rows ∧ deanPass (rowTitle ti r) = true) ∧
    deanPass "Dean COBA".toList = true ∧
    deanPass "Associate Dean".toList = false :=
  ⟨deanPass_iff t, List.filter_sublist rows, fun _ => List.mem_filter,
    by decide, by decide⟩

/-- C3 counterexample: `"Dean of College"` does not name a specific college
and no department is available, yet the normalizer returns the title
unchanged, not `"Dean Unknown"`. -/
theorem C3_counterexample :
    titleNamesCollege (pyStrip "Dean of College".toList) = false ∧
    normalize_dean_title "Dean of College".toList none =
      some ("Dean of College".toList) ∧
    normalize_dean_title "Dean of College".toList none ≠
      some ("Dean Unknown".toList) :=
  ⟨by decide, by decide, by decide⟩

/-- C3 (amended): with no department value the normalizer always returns
the stripped raw title unchanged; the string `Dean Unknown` is never
produced. -/
theorem C3_no_dept_returns_title (t : List Char) :
    normalize_dean_title t none = some (pyStrip t) :=
  normalize_dean_title_noDept t

/-- C4 counterexample: a source whose filename has no fiscal-year token is
not skipped — it is processed without error and contributes a record. -/
theorem C4_counterexample :
    extractYear c4Source.filename = none ∧
    sourceRecords c4Source = [c4Record] ∧
    sourceRecords c4Source ≠ [] ∧
    sourceAborts c4Source = false :=
  ⟨by decide, by decide, by decide, by decide⟩

/-- C4 (amended): a source with no resolvable fiscal year is processed like
any other; every record it contributes carries `Year = None` (and in
general a record's year is exactly the year extracted from the filename). -/
theorem C4_year_from_filename (s : Source) (r : DeanRecord)
    (h : r ∈ sourceRecords s) : r.year = extractYear s.filename :=
  (sourceRecords_props s r h).1

/-- C4 witness: the record of the yearless source carries `none`. -/
theorem C4_year_from_filename_witness :
    c4Record.year = extractYear c4Source.filename :=
  C4_year_from_filename c4Source c4Record (by decide)

/-- C5 counterexample: the literal header `Department Name` does not keep
its original string in the reconciled row set — it appears as its
normalized key `departmentname`. -/
theorem C5_counterexample :
    reconcileIdx c5Read = some (0, ["Title".toList, "Name".toList,
      "Salary".toList, "departmentname".toList], []) ∧
    "Department Name".toList ∉ ["Title".toList, "Name".toList,
      "Salary".toList, "departmentname".toList] :=
  ⟨by decide, by decide⟩

/-- C5 (amended): a header whose normalized key is not in the alias table
passes through as that normalized key (lower-cased, punctuation and spaces
stripped), which is what appears among the reconciled columns. -/
theorem C5_unmapped_pass_normalized (cols : List (List Char)) (c : List Char)
    (hmem : c ∈ cols)
    (hun : col_map.find? (fun p => p.1 == normalize_col c) = none) :
    applyAlias (normalize_col c) = normalize_col c ∧
      normalize_col c ∈ cols.map fun c2 => applyAlias (normalize_col c2) := by
  have h1 : applyAlias (normalize_col c) = normalize_col c := by
    rw [applyAlias, hun]
  exact ⟨h1, List.mem_map.mpr ⟨c, hmem, h1⟩⟩

/-- C5 witness at the literal header `Department Name`. -/
theorem C5_unmapped_pass_normalized_witness :
    applyAlias (normalize_col "Department Name".toList) =
      normalize_col "Department Name".toList ∧
    normalize_col "Department Name".toList ∈
      ["Department Name".toList].map fun c2 => applyAlias (normalize_col c2) :=
  C5_unmapped_pass_normalized ["Department Name".toList] "Department Name".toList
    (by decide) (by decide)

/-- C6: the claim that a single-source failure never aborts the run is
right, but the code has a bug: when no header offset works, the diagnostic
10-row sample read at line 195 runs outside any try/except, so a source
whose sheet reads always raise aborts the whole run and the remaining
healthy sources (here `c6Good`, which alone contributes a record) are never
processed. -/
theorem C6_diagnostic_read_aborts :
    sourceRecords c6Good = [c6Record] ∧
    sourceAborts c6Good = false ∧
    sourceAborts c6Bad = true ∧
    (runAll [c6Bad, c6Good]).aborted = true ∧
    (runAll [c6Bad, c6Good]).records = [] :=
  ⟨by decide, by decide, by decide, by decide, by decide⟩

/-- C7 counterexample: with no sources the dataset is empty, yet the run
completes, writes the CSV and prints the success message — it does not
fail. -/
theorem C7_counterexample :
    (runAll []).records = [] ∧
    (runAll []).aborted = false ∧
    csvWritten (runAll []) = true ∧
    successMessagePrinted (runAll []) = true :=
  ⟨rfl, rfl, rfl, rfl⟩

/-- C7 (amended): whenever the loop completes, the CSV is written and the
success message printed unconditionally — there is no empty-dataset
failure path. -/
theorem C7_unconditional_emit (srcs : List Source)
    (h : (runAll srcs).aborted = false) :
    csvWritten (runAll srcs) = true ∧ successMessagePrinted (runAll srcs) = true := by
  rw [csvWritten, successMessagePrinted, h]
  exact ⟨rfl, rfl⟩

/-- C7 witness at the empty source list. -/
theorem C7_unconditional_emit_witness :
    csvWritten (runAll []) = true ∧ successMessagePrinted (runAll []) = true :=
  C7_unconditional_emit [] (by decide)

/-- C8: the title normalizer preserves the DeanRecord invariant for every
title that passed the Dean filter, and consequently every record of the
final dataset starts with the word `Dean` and never contains
`Dean's Office Specialist`. -/
theorem C8_record_invariant :
    (∀ t d res, deanPass t = true → normalize_dean_title t d = some res →
      DeanInvariant res) ∧
    ∀ srcs r, r ∈ (runAll srcs).records → DeanInvariant r.title :=
  ⟨fun t d res hp hn => normalizeFuel_invariant 2 t d res hp hn,
   fun srcs r hr => runAll_records_props srcs r hr⟩

/-- C8 witness: the invariant for the normalized form of "Dean COBA". -/
theorem C8_record_invariant_witness : DeanInvariant "Dean COBA".toList :=
  C8_record_invariant.1 "Dean COBA".toList none "Dean COBA".toList
    (by decide) (by decide)

/-- C9: on titles that already name a specific college the normalizer is
idempotent: it returns a title on which a second application is the
identity, for every department value. -/
theorem C9_idempotent (t : List Char) (d : Option (List Char))
    (h : titleNamesCollege (pyStrip t) = true) :
    ∃ res, normalize_dean_title t d = some res ∧
      normalize_dean_title res d = some res := by
  refine ⟨pyStrip t, normalizeFuel_titleNames d 1 h, ?_⟩
  have h2 : titleNamesCollege (pyStrip (pyStrip t)) = true := by
    rw [pyStrip_idem]
    exact h
  have h3 := normalizeFuel_titleNames (t := pyStrip t) d 1 h2
  rw [pyStrip_idem] at h3
  exact h3

/-- C9 witness at "Dean COBA". -/
theorem C9_idempotent_witness :
    ∃ res, normalize_dean_title "Dean COBA".toList none = some res ∧
      normalize_dean_title res none = some res :=
  C9_idempotent "Dean COBA".toList none (by decide)

/-- C10: the department value handed to the normalizer comes from the
first column (left-to-right) whose normalized key is one of the candidate
set, contains `college`, or starts with `dept`; when no column qualifies
the normalizer receives no department value. -/
theorem C10_dept_column (cols : List (List Char)) :
    (∀ c, deptPred c = true ↔ (normalize_col c ∈ deptCandidates ∨
      (∃ p q, normalize_col c = p ++ "college".toList ++ q) ∨
      (∃ q, normalize_col c = "dept".toList ++ q))) ∧
    (∀ c, findDeptCol cols = some c →
      ∃ i : Nat, cols[i]? = some c ∧ deptPred c = true ∧
        ∀ (j : Nat) (c2 : List Char), j < i → cols[j]? = some c2 →
          deptPred c2 = false) ∧
    (findDeptCol cols = none ↔ ∀ c ∈ cols, deptPred c = false) ∧
    (findDeptCol cols = none → ∀ row, deptArg cols row = none) := by
  refine ⟨?_, fun c => findDeptCol_some_charn cols c, findDeptCol_none_charn cols, ?_⟩
  · intro c
    rw [deptPred]
    simp only [Bool.or_eq_true]
    rw [List.elem_iff, containsSub_iff, isPrefixOf_iff_exists]
    constructor
    · rintro ((h | ⟨p, q, hpq⟩) | ⟨tl, htl⟩)
      · exact Or.inl h
      · exact Or.inr (Or.inl ⟨p, q, hpq⟩)
      · exact Or.inr (Or.inr ⟨tl, htl⟩)
    · rintro (h | ⟨p, q, hpq⟩ | ⟨tl, htl⟩)
      · exact Or.inl (Or.inl h)
      · exact Or.inl (Or.inr ⟨p, q, hpq⟩)
      · exact Or.inr ⟨tl, htl⟩
  · intro h row
    rw [deptArg, h]
    rfl

/-- C10 witness: a qualifying `College` header, and no department value
when no column qualifies. -/
theorem C10_dept_column_witness :
    deptPred "College".toList = true ∧
    deptArg ["Title".toList, "Name".toList, "Salary".toList] ["x".toList] = none :=
  ⟨((C10_dept_column []).1 "College".toList).mpr (Or.inl (by decide)),
   (C10_dept_column ["Title".toList, "Name".toList, "Salary".toList]).2.2.2
     (by decide) ["x".toList]⟩

/-! ## Sanity evaluations of the embedding on concrete inputs -/

/-- The end-to-end scenario: one 2012 source with a `Dean COSET` row and an
`Associate Dean` row yields exactly one record. -/
theorem egSource_records :
    sourceRecords egSource =
      [{ year := some 2012, title := "Dean COSET".toList,
         name := "Jane Doe".toList, salary := "150000".toList }] ∧
    sourceAborts egSource = false :=
  ⟨by decide, by decide⟩

/-- Fiscal-year extraction on the spec's examples. -/
theorem extractYear_eval :
    extractYear "FY2013_Full_Time_Employee.xlsx".toList = some 2013 ∧
    extractYear "FY09.xls".toList = some 2009 ∧
    extractYear "fy 13 salaries.xls".toList = some 2013 ∧
    extractYear "Full_Time_Employees.xlsx".toList = none :=
  ⟨by decide, by decide, by decide, by decide⟩

/-- The already-specific test of the normalizer's first two regexes. -/
theorem titleNamesCollege_eval :
    titleNamesCollege "Dean COBA".toList = true ∧
    titleNamesCollege "Dean, College of Education".toList = true ∧
    titleNamesCollege "Dean of College".toList = false :=
  ⟨by decide, by decide, by decide⟩

/-- Department-driven normalization: table hit, raw code, acronym fallback,
and the divergent department strings (`nan`, whitespace) on which the
Python function recurses forever. -/
theorem normalize_dean_title_eval :
    normalize_dean_title "Dean of College".toList
      (some "COSET Office of the Dean".toList) = some "Dean COSET".toList ∧
    normalize_dean_title "Dean of College".toList (some "chss".toList) =
      some "Dean CHSS".toList ∧
    normalize_dean_title "Dean of College".toList
      (some "College of Fine Arts and Mass Communication".toList) =
      some "Dean COFA".toList ∧
    normalize_dean_title "Dean of College".toList (some "nan".toList) = none ∧
    normalize_dean_title "Dean of College".toList (some " ".toList) = none :=
  ⟨by decide, by decide, by decide, by decide, by decide⟩

/-- The Dean filter on concrete titles, including the word-boundary case
`Deanna` and the excluded specialist title. -/
theorem deanPass_eval :
    deanPass "Dean COBA".toList = true ∧
    deanPass "Associate Dean".toList = false ∧
    deanPass "Deanna Smith".toList = false ∧
    deanPass ("Dean".toList ++ [aposC] ++ "s Office Specialist".toList) = false :=
  ⟨by decide, by decide, by decide, by decide⟩
